import Mathlib

set_option maxRecDepth 100000

/-!
Shallow embedding of the SD-IDC / HMQC core pipeline (compression engine,
FEC engine, metadata codec, matrix layout) over byte sequences modelled as
lists of natural numbers.  A JS Uint8Array element is a natural number
below 256; the ToUint8 coercion performed by a Uint8Array construction is
modelled explicitly as a pointwise reduction modulo 256.  JS out-of-range
reads yield undefined, which the arithmetic contexts of this code coerce
to 0; this is modelled with List.getD defaults.
-/

namespace SDIDC

/-- ToUint8 coercion applied elementwise by a Uint8Array construction. -/
def u8 (l : List Nat) : List Nat := l.map (· % 256)

/-- Content types dispatched on by the compression engine and the metadata
codec.  The JS switch default (any other string) coincides with the
binary branch. -/
inductive DType where
  | text
  | image
  | audio
  | binary
deriving DecidableEq

namespace HMQCCompressor

/-- Length of the run of value v at the head of the list, capped at cap.
Models the inner counting loop of runLengthEncode, whose condition is
bytes at i+count equals bytes at i and count below 255. -/
def countRun (v : Nat) : List Nat → Nat → Nat
  | b :: rest, cap + 1 => if b = v then countRun v rest cap + 1 else 0
  | _, _ => 0

/-- Main loop of runLengthEncode (compression.js, lines 233-264), with
explicit fuel so the recursion is structural; fuel equal to the input
length always suffices because every iteration consumes at least one
input byte.  Runs longer than 3 become a record 254, count, value; a
literal 254 byte is escaped as 254, 1, 254; other bytes pass through. -/
def rleLoop : Nat → List Nat → List Nat
  | _, [] => []
  | 0, _ :: _ => []
  | fuel + 1, b :: rest =>
    if 3 < 1 + countRun b rest 254 then
      254 :: (1 + countRun b rest 254) :: b :: rleLoop fuel (rest.drop (countRun b rest 254))
    else if b = 254 then 254 :: 1 :: 254 :: rleLoop fuel rest
    else b :: rleLoop fuel rest

/-- HMQCCompressor.runLengthEncode (compression.js, lines 233-264). -/
def runLengthEncode (bytes : List Nat) : List Nat :=
  u8 (rleLoop bytes.length bytes)

/-- Main loop of runLengthDecode (compression.js, lines 266-284), with
structural fuel; fuel equal to the input length suffices because every
iteration consumes at least one input byte.  A byte 254 followed by at
least two further bytes is an escape record expanding to count copies of
the value; a byte 254 closer than two bytes to the end of the buffer is
passed through as a literal, as are all other bytes. -/
def rldLoop : Nat → List Nat → List Nat
  | _, [] => []
  | 0, _ :: _ => []
  | fuel + 1, b :: rest =>
    match rest with
    | cnt :: v :: rest2 =>
      if b = 254 then List.replicate cnt v ++ rldLoop fuel rest2
      else b :: rldLoop fuel rest
    | _ => b :: rldLoop fuel rest

/-- HMQCCompressor.runLengthDecode (compression.js, lines 266-284). -/
def runLengthDecode (compressed : List Nat) : List Nat :=
  u8 (rldLoop compressed.length compressed)

/-- Fixed dictionary of compressText (compression.js, lines 59-68), with
each word spelled as its ASCII byte sequence: the is 116,104,101 and so
on through she, mapped to the codes 0x80 through 0x9F. -/
def textDictionary : List (List Nat × Nat) :=
  [([116, 104, 101], 128), ([97, 110, 100], 129), ([102, 111, 114], 130),
   ([97, 114, 101], 131), ([98, 117, 116], 132), ([110, 111, 116], 133),
   ([121, 111, 117], 134), ([97, 108, 108], 135), ([99, 97, 110], 136),
   ([104, 101, 114], 137), ([119, 97, 115], 138), ([111, 110, 101], 139),
   ([111, 117, 114], 140), ([111, 117, 116], 141), ([100, 97, 121], 142),
   ([103, 101, 116], 143), ([104, 97, 115], 144), ([104, 105, 109], 145),
   ([104, 105, 115], 146), ([104, 111, 119], 147), ([105, 116, 115], 148),
   ([109, 97, 121], 149), ([110, 101, 119], 150), ([110, 111, 119], 151),
   ([111, 108, 100], 152), ([115, 101, 101], 153), ([116, 119, 111], 154),
   ([119, 97, 121], 155), ([119, 104, 111], 156), ([98, 111, 121], 157),
   ([100, 105, 100], 158), ([115, 104, 101], 159)]

/-- Lookup of a byte-sequence key in an association list, modelling a JS
object or Map lookup keyed by the comma-joined decimal rendering of the
sequence, which is injective on byte sequences. -/
def lookupCode (table : List (List Nat × Nat)) (key : List Nat) : Option Nat :=
  (table.find? (fun e => e.1 = key)).map (fun e => e.2)

/-- Scanning loop of compressText (compression.js, lines 70-93): at each
position try a 3-byte then a 2-byte dictionary match (the dictionary
contains only 3-byte words, so 2-byte lookups never hit); on a match emit
the code and advance by the word length, otherwise emit the byte.  Fuel
equal to the input length suffices. -/
def ctLoop : Nat → List Nat → List Nat
  | _, [] => []
  | 0, _ :: _ => []
  | fuel + 1, b :: rest =>
    match (if 3 ≤ (b :: rest).length then lookupCode textDictionary ((b :: rest).take 3) else none) with
    | some code => code :: ctLoop fuel ((b :: rest).drop 3)
    | none =>
      match (if 2 ≤ (b :: rest).length then lookupCode textDictionary ((b :: rest).take 2) else none) with
      | some code => code :: ctLoop fuel ((b :: rest).drop 2)
      | none => b :: ctLoop fuel rest

/-- HMQCCompressor.compressText (compression.js, lines 54-96), modelled on
the byte sequence produced by the TextEncoder at its entry. -/
def compressText (bytes : List Nat) : List Nat :=
  u8 (ctLoop bytes.length bytes)

/-- Expansion loop of decompressText (compression.js, lines 110-121):
bytes carrying a dictionary code expand to the word, others pass through. -/
def dtExpand : List Nat → List Nat
  | [] => []
  | b :: rest =>
    (match (textDictionary.find? (fun e => e.2 = b)).map (fun e => e.1) with
     | some word => word
     | none => [b]) ++ dtExpand rest

/-- HMQCCompressor.decompressText (compression.js, lines 98-125), modelled
as the byte sequence handed to the TextDecoder at its exit. -/
def decompressText (compressed : List Nat) : List Nat :=
  u8 (dtExpand compressed)

/-- JS (a - b) & 0xFF on byte values: subtraction wrapped modulo 256. -/
def byteSub (a b : Nat) : Nat := (((a : Int) - (b : Int)) % 256).toNat

/-- Delta pass of compressBinary (compression.js, lines 131-135): first
byte kept, then successive differences modulo 256.  On empty input the JS
array holds a single undefined, which the Uint8Array coercion turns into
one zero byte. -/
def deltaEncode (bytes : List Nat) : List Nat :=
  match bytes with
  | [] => [0]
  | b0 :: rest => b0 :: List.zipWith byteSub rest (b0 :: rest)

/-- One Map.set increment of the pattern-frequency table, preserving JS
Map insertion order: a present key is bumped in place, an absent key is
appended with count 1. -/
def bump (m : List (List Nat × Nat)) (k : List Nat) : List (List Nat × Nat) :=
  if m.any (fun e => e.1 = k) then
    m.map (fun e => if e.1 = k then (e.1, e.2 + 1) else e)
  else m ++ [(k, 1)]

/-- Pattern-frequency analysis of encodeFrequentPatterns (compression.js,
lines 159-165): every subsequence of length 5, then 4, then 3 is counted,
scanning each length left to right. -/
def countPatterns (bytes : List Nat) : List (List Nat × Nat) :=
  [5, 4, 3].foldl
    (fun m len =>
      (if len ≤ bytes.length then List.range (bytes.length - len + 1) else []).foldl
        (fun m2 i => bump m2 ((bytes.drop i).take len)) m)
    []

/-- Stable insertion into a count-descending list: the inserted entry goes
before the first entry whose count is not larger, so that entries with
equal counts keep their original relative order. -/
def insertByCountDesc (x : List Nat × Nat) : List (List Nat × Nat) → List (List Nat × Nat)
  | [] => [x]
  | y :: ys => if x.2 < y.2 then y :: insertByCountDesc x ys else x :: y :: ys

/-- Stable sort by descending count, modelling the JS stable Array sort
with comparator b count minus a count. -/
def sortByCountDesc : List (List Nat × Nat) → List (List Nat × Nat)
  | [] => []
  | x :: xs => insertByCountDesc x (sortByCountDesc xs)

/-- The topPatterns selection (compression.js, lines 168-171): entries
with count above 3, sorted by descending count, first 16 kept. -/
def topPatterns (bytes : List Nat) : List (List Nat × Nat) :=
  (sortByCountDesc ((countPatterns bytes).filter (fun e => 3 < e.2))).take 16

/-- The encodeMap (compression.js, lines 174-177): the i-th top pattern is
assigned code 0xA0 + i. -/
def encodeMap (bytes : List Nat) : List (List Nat × Nat) :=
  (topPatterns bytes).enum.map (fun p => (p.2.1, 160 + p.1))

/-- Greedy substitution loop of encodeFrequentPatterns (compression.js,
lines 180-200): at each position the lengths 5, 4, 3 are tried in order
when they fit inside the buffer; a mapped sequence is replaced by its
code, otherwise one literal byte is emitted.  Fuel equal to the input
length suffices. -/
def efpLoop (emap : List (List Nat × Nat)) : Nat → List Nat → List Nat
  | _, [] => []
  | 0, _ :: _ => []
  | fuel + 1, b :: rest =>
    match (if 5 ≤ (b :: rest).length then lookupCode emap ((b :: rest).take 5) else none) with
    | some code => code :: efpLoop emap fuel ((b :: rest).drop 5)
    | none =>
      match (if 4 ≤ (b :: rest).length then lookupCode emap ((b :: rest).take 4) else none) with
      | some code => code :: efpLoop emap fuel ((b :: rest).drop 4)
      | none =>
        match (if 3 ≤ (b :: rest).length then lookupCode emap ((b :: rest).take 3) else none) with
        | some code => code :: efpLoop emap fuel ((b :: rest).drop 3)
        | none => b :: efpLoop emap fuel rest

/-- HMQCCompressor.encodeFrequentPatterns (compression.js, lines 155-205).
The in-band dictionary is built from the destructuring pattern, underscore
and code, of each top entry, whose second component is the COUNT of the
pattern, not its bytes; the Uint8Array construction reduces the counts
modulo 256.  The dictionary is terminated by 0xFF and followed by the
substituted body. -/
def encodeFrequentPatterns (bytes : List Nat) : List Nat :=
  u8 (((topPatterns bytes).map (fun e => e.2) ++ [255]) ++
      efpLoop (encodeMap bytes) bytes.length bytes)

/-- Scan of decodeFrequentPatterns for the dictionary end (compression.js,
lines 212-215): index of the first 0xFF byte, or the input length when no
terminator occurs. -/
def dictEndIdx : List Nat → Nat
  | [] => 0
  | b :: rest => if b = 255 then 0 else dictEndIdx rest + 1

/-- Body expansion of decodeFrequentPatterns (compression.js, lines
218-225): a byte in the reserved range 0xA0 to 0xAF is replaced by the
placeholder 0, 0, 0; every other byte passes through. -/
def pfpBody : List Nat → List Nat
  | [] => []
  | b :: rest => (if 160 ≤ b ∧ b ≤ 175 then [0, 0, 0] else [b]) ++ pfpBody rest

/-- HMQCCompressor.decodeFrequentPatterns (compression.js, lines 207-228). -/
def decodeFrequentPatterns (compressed : List Nat) : List Nat :=
  u8 (pfpBody (compressed.drop (dictEndIdx compressed + 1)))

/-- HMQCCompressor.compressBinary (compression.js, lines 130-139). -/
def compressBinary (bytes : List Nat) : List Nat :=
  encodeFrequentPatterns (deltaEncode bytes)

/-- Prefix-sum loop of decompressBinary (compression.js, lines 143-147):
each output byte is the previous output byte plus the delta, masked to a
byte. -/
def deltaDecodeGo (prev : Nat) : List Nat → List Nat
  | [] => []
  | d :: ds => ((prev + d) % 256) :: deltaDecodeGo ((prev + d) % 256) ds

/-- HMQCCompressor.decompressBinary (compression.js, lines 141-150).  On
an empty delta stream the JS array holds one undefined, which the final
Uint8Array coercion turns into a single zero byte. -/
def decompressBinary (compressed : List Nat) : List Nat :=
  match decodeFrequentPatterns compressed with
  | [] => [0]
  | d0 :: ds => u8 (d0 :: deltaDecodeGo d0 ds)

/-- HMQCCompressor.compressAudioData (compression.js, lines 301-314): the
first two bytes are kept, then each 16-bit little-endian sample at an
even index from 2 on is replaced by its difference from the previous
sample modulo 2^16, emitted as low byte then high byte; the result is
routed through compressBinary.  Out-of-range reads give undefined, which
the JS bitwise operators coerce to 0. -/
def compressAudioData (bytes : List Nat) : List Nat :=
  compressBinary (u8 (bytes.getD 0 0 :: bytes.getD 1 0 ::
    (((List.range bytes.length).filter (fun i => 2 ≤ i ∧ i % 2 = 0)).map (fun i =>
      let sample := Nat.lor (bytes.getD i 0) ((bytes.getD (i + 1) 0) <<< 8)
      let prev := Nat.lor (bytes.getD (i - 2) 0) ((bytes.getD (i - 1) 0) <<< 8)
      let delta := (((sample : Int) - (prev : Int)) % 65536).toNat
      [delta % 256, delta >>> 8])).flatten))

/-- HMQCCompressor.decompressAudioData (compression.js, lines 316-329):
the inverse scan, reading the previous sample back out of the bytes
already produced. -/
def decompressAudioData (compressed : List Nat) : List Nat :=
  u8 (let delta := decompressBinary compressed
    ((List.range delta.length).filter (fun i => 2 ≤ i ∧ i % 2 = 0)).foldl
      (fun res i =>
        let deltaVal := Nat.lor (delta.getD i 0) ((delta.getD (i + 1) 0) <<< 8)
        let prev := Nat.lor (res.getD (i - 2) 0) ((res.getD (i - 1) 0) <<< 8)
        let sample := (prev + deltaVal) % 65536
        res ++ [sample % 256, sample >>> 8])
      [delta.getD 0 0, delta.getD 1 0])

/-- HMQCCompressor.compress (compression.js, lines 14-33): mode-specific
pass selected by the content type (compressImageData delegates to
compressBinary), followed by the run-length pass. -/
def compress (data : List Nat) (dataType : DType) : List Nat :=
  runLengthEncode
    (match dataType with
     | .text => compressText data
     | .image => compressBinary data
     | .audio => compressAudioData data
     | .binary => compressBinary data)

/-- HMQCCompressor.decompress (compression.js, lines 35-49): run-length
decode first, then the mode-specific expansion selected by the content
type. -/
def decompress (data : List Nat) (dataType : DType) : List Nat :=
  match dataType with
  | .text => decompressText (runLengthDecode data)
  | .image => decompressBinary (runLengthDecode data)
  | .audio => decompressAudioData (runLengthDecode data)
  | .binary => decompressBinary (runLengthDecode data)

end HMQCCompressor

namespace HMQCECC

/-- Message symbols per Reed-Solomon block, RS(255, 223). -/
def messageLength : Nat := 223

/-- Codeword symbols per block. -/
def codewordLength : Nat := 255

/-- Parity symbols per block. -/
def parityLength : Nat := 32

/-- Block-splitting loop of HMQCECC.splitIntoBlocks (part_001, lines
75-92): message-sized slices, the final short slice zero-padded at the
end.  Fuel equal to the input length suffices because each step consumes
at least one byte. -/
def splitLoop : Nat → List Nat → List (List Nat)
  | _, [] => []
  | 0, _ :: _ => []
  | fuel + 1, l@(_ :: _) =>
    (l.take messageLength ++ List.replicate (messageLength - (l.take messageLength).length) 0) ::
      splitLoop fuel (l.drop messageLength)

/-- HMQCECC.splitIntoBlocks (part_001, lines 75-92). -/
def splitIntoBlocks (data : List Nat) : List (List Nat) :=
  splitLoop data.length data

/-- Codeword-splitting loop of HMQCECC.extractBlocks (part_001, lines
97-106): codeword-sized slices with NO padding of a short final slice. -/
def extractLoop : Nat → List Nat → List (List Nat)
  | _, [] => []
  | 0, _ :: _ => []
  | fuel + 1, l@(_ :: _) => l.take codewordLength :: extractLoop fuel (l.drop codewordLength)

/-- HMQCECC.extractBlocks (part_001, lines 97-106). -/
def extractBlocks (encodedData : List Nat) : List (List Nat) :=
  extractLoop encodedData.length encodedData

/-- HMQCECC.rsEncodeBlock (part_001, lines 111-126): the message is laid
into a zeroed 255-byte working array; for each message index the feedback
is the byte there XOR the byte at the message length, and a nonzero
feedback is XORed into the 32 following positions; the parity returned is
the tail of the working array after the loop.  The emitted codeword in
encode is the ORIGINAL message followed by this parity, even though the
loop also mutates message positions of the working array. -/
def rsEncodeBlock (message : List Nat) : List Nat :=
  ((List.range message.length).foldl
    (fun (c : List Nat) i =>
      let feedback := Nat.xor (c.getD i 0) (c.getD message.length 0)
      if feedback ≠ 0 then
        (List.range parityLength).foldl
          (fun (c2 : List Nat) j => c2.set (i + j + 1) (Nat.xor (c2.getD (i + j + 1) 0) feedback)) c
      else c)
    (message ++ List.replicate (codewordLength - message.length) 0)).drop message.length

/-- Result record of rsDecodeBlock.  The JS object omits the uncorrectable
field except in the too-many-errors branch, where it is true; an absent
field reads as falsy, modelled as false. -/
structure BlockResult where
  data : List Nat
  errors : Nat
  uncorrectable : Bool
deriving DecidableEq

/-- HMQCECC.rsDecodeBlock (part_001, lines 131-179).  Every one of the 32
syndrome slots receives the SAME value, the XOR of all codeword bytes, so
the error count is 0 when that XOR is zero and 32 otherwise; the
simplified correction branch, which flips bytes at positions chosen by
Math.random, is therefore unreachable (32 is never at most 16).  The
random draws are modelled by the oracle rand. -/
def rsDecodeBlock (rand : Nat → Bool) (codeword : List Nat) : BlockResult :=
  let syndromeSum := codeword.foldl Nat.xor 0
  let errors := (List.range parityLength).foldl
    (fun e _ => if syndromeSum ≠ 0 then e + 1 else e) 0
  if errors = 0 then
    { data := codeword.take messageLength, errors := 0, uncorrectable := false }
  else if errors ≤ parityLength / 2 then
    { data := ((List.range codeword.length).foldl
        (fun c i => if rand i then c.set i (Nat.xor (c.getD i 0) 255) else c)
        codeword).take messageLength,
      errors := errors, uncorrectable := false }
  else
    { data := codeword.take messageLength, errors := errors, uncorrectable := true }

/-- HMQCECC.encode (part_001, lines 37-47). -/
def encode (data : List Nat) : List Nat :=
  ((splitIntoBlocks data).map (fun block => block ++ rsEncodeBlock block)).flatten

/-- Result record of HMQCECC.decode: recovered data, aggregate corrected
error count, and the success flag.  The JS result has no uncorrectable
field; success is the comparison of the aggregate count against half the
parity length. -/
structure ECCResult where
  data : List Nat
  correctedErrors : Nat
  success : Bool
deriving DecidableEq

/-- HMQCECC.decode (part_001, lines 52-70). -/
def decode (rand : Nat → Bool) (data : List Nat) : ECCResult :=
  let results := (extractBlocks data).map (rsDecodeBlock rand)
  let corrected := (results.map (fun r => r.errors)).sum
  { data := (results.map (fun r => r.data)).flatten,
    correctedErrors := corrected,
    success := decide (corrected ≤ parityLength / 2) }

/-- Number of positions at which two equal-length symbol sequences
differ: the count of symbol errors introduced into a codeword. -/
def symbolDiffCount (a b : List Nat) : Nat :=
  (List.zipWith (fun x y => if x = y then 0 else 1) a b).sum

end HMQCECC

namespace HMQCCore

/-- HMQCCore.version (hmqc-core.js, line 8). -/
def coreVersion : String := "3.0"

/-- The numeric components of coreVersion, as produced by splitting the
version string at the dots and parsing each piece. -/
def versionParts : List Nat := [3, 0]

/-- The packed 32-bit version word (hmqc-core.js, line 196): the reduce
shifts the accumulator left by 8 bits and ORs in the next component,
starting from the first component, giving 3 shifted once, that is 768. -/
def versionWord : Nat :=
  match versionParts with
  | [] => 0
  | h :: t => t.foldl (fun a b => Nat.lor (a <<< 8) b) h

/-- Content-type code written at header offset 8 (hmqc-core.js, line
197): text 1, image 2, audio 3, anything else 4. -/
def typeCode (t : DType) : Nat :=
  match t with
  | .text => 1
  | .image => 2
  | .audio => 3
  | .binary => 4

/-- Name of a content type as the JS string it is dispatched on. -/
def dtName (t : DType) : String :=
  match t with
  | .text => "text"
  | .image => "image"
  | .audio => "audio"
  | .binary => "binary"

/-- DataView.setUint32 with big-endian byte order: the value reduced
modulo 2^32, split into four bytes, most significant first. -/
def u32be (v : Nat) : List Nat :=
  [(v % 4294967296) >>> 24, ((v % 4294967296) >>> 16) % 256,
   ((v % 4294967296) >>> 8) % 256, v % 256]

/-- DataView.getUint32 with big-endian byte order at a byte offset. -/
def readU32 (bytes : List Nat) (off : Nat) : Nat :=
  bytes.getD off 0 * 16777216 + bytes.getD (off + 1) 0 * 65536 +
    bytes.getD (off + 2) 0 * 256 + bytes.getD (off + 3) 0

/-- Uppercase hexadecimal digit, matching the JS toString(16) digits after
toUpperCase. -/
def hexDigitChar (d : Nat) : Char :=
  if d < 10 then Char.ofNat (48 + d) else Char.ofNat (55 + d)

/-- Hexadecimal digits of n, most significant first, with structural fuel;
fuel n suffices since the value shrinks by a factor 16 each step. -/
def hexDigits : Nat → Nat → List Char
  | 0, _ => []
  | fuel + 1, n => if n = 0 then [] else hexDigits fuel (n / 16) ++ [hexDigitChar (n % 16)]

/-- JS n.toString(16).toUpperCase() for a natural number. -/
def toHexUpper (n : Nat) : String :=
  if n = 0 then "0" else String.mk (hexDigits n n)

/-- Parsed metadata record (hmqc-core.js, lines 213-221).  The timestamp
field is kept as the raw seconds word read at offset 20; the JS Date
wrapper is outside the byte-level model. -/
structure Metadata where
  magic : String
  version : String
  dataType : String
  originalSize : Nat
  compressedSize : Nat
  timestampSecs : Nat
  id : Nat
deriving DecidableEq

/-- HMQCCore.generateMetadata (hmqc-core.js, lines 191-205).  The
timestamp (Date.now in seconds) and the random instance id are
nondeterministic inputs of the JS code and are passed as parameters. -/
def generateMetadata (dataType : DType) (originalSize compressedSize timestamp id : Nat) :
    List Nat :=
  u32be 0x484D5143 ++ (u32be versionWord ++ (u32be (typeCode dataType) ++
    (u32be originalSize ++ (u32be compressedSize ++ (u32be timestamp ++
      (u32be id ++ u32be 0))))))

/-- Content-type name table lookup of parseMetadata (hmqc-core.js, line
216): the array unknown, text, image, audio, binary indexed by the code,
with any out-of-range access falling back to unknown. -/
def typeNameOfCode (code : Nat) : String :=
  if code = 1 then "text"
  else if code = 2 then "image"
  else if code = 3 then "audio"
  else if code = 4 then "binary"
  else "unknown"

/-- HMQCCore.parseMetadata (hmqc-core.js, lines 210-222).  No field is
validated: the magic word is rendered as an uppercase hex string whatever
it is, and the version sub-fields are read from bits 16-23, 8-15 and 0-7
of the version word. -/
def parseMetadata (bytes : List Nat) : Metadata :=
  let v := readU32 bytes 4
  { magic := toHexUpper (readU32 bytes 0)
    version := toString ((v >>> 16) % 256) ++ "." ++ toString ((v >>> 8) % 256) ++ "." ++
      toString (v % 256)
    dataType := typeNameOfCode (readU32 bytes 8)
    originalSize := readU32 bytes 12
    compressedSize := readU32 bytes 16
    timestampSecs := readU32 bytes 20
    id := readU32 bytes 24 }

/-- Math.ceil of the real square root of a natural number. -/
def ceilSqrt (n : Nat) : Nat :=
  if n = 0 then 0 else Nat.sqrt (n - 1) + 1

/-- HMQCCore.calculateMatrixSize (hmqc-core.js, lines 58-67): modules
needed at 32 bits per module, ceiling square root plus 50 extra for the
markers, clamped between 256 and the maximum dimension 4096. -/
def calculateMatrixSize (dataLength : Nat) : Nat :=
  min (max (ceilSqrt ((dataLength * 8 + 31) / 32) + 50) 256) 4096

/-- One RGBA matrix module (hmqc-core.js, line 94). -/
structure ColorModule where
  r : Nat
  g : Nat
  b : Nat
  a : Nat
deriving DecidableEq

/-- HMQCCore.bytesToColorModules (hmqc-core.js, lines 72-98).  Module i
takes its four channels from bytes 4i through 4i+3 while 4i is inside the
stream; the JS fallbacks via the OR-with-default idiom make a missing
green or blue byte 0 and a missing OR ZERO alpha byte 255.  Beyond the
stream every module is the fixed pattern 7i, 13i, 19i modulo 256 with
full alpha. -/
def bytesToColorModules (bytes : List Nat) (width height : Nat) : List ColorModule :=
  (List.range (width * height)).map (fun i =>
    if i * 4 < bytes.length then
      { r := bytes.getD (i * 4) 0
        g := bytes.getD (i * 4 + 1) 0
        b := bytes.getD (i * 4 + 2) 0
        a := if bytes.getD (i * 4 + 3) 0 = 0 then 255 else bytes.getD (i * 4 + 3) 0 }
    else
      { r := i * 7 % 256, g := i * 13 % 256, b := i * 19 % 256, a := 255 })

end HMQCCore

/-! ## General lemmas about the Uint8Array coercion -/

theorem u8_mem_lt {l : List Nat} {b : Nat} (hb : b ∈ u8 l) : b < 256 := by
  rcases List.mem_map.mp hb with ⟨a, _, rfl⟩
  exact Nat.mod_lt _ (by omega)

theorem u8_eq_self {l : List Nat} (h : ∀ b ∈ l, b < 256) : u8 l = l := by
  induction l with
  | nil => rfl
  | cons a t ih =>
    have ha : a % 256 = a := Nat.mod_eq_of_lt (h a (by simp))
    simpa [u8, ha] using ih (fun b hb => h b (by simp [hb]))

namespace HMQCCompressor

/-! ## Run-length pass: supporting lemmas and the round-trip law -/

theorem countRun_le_cap (v : Nat) : ∀ (l : List Nat) (cap : Nat), countRun v l cap ≤ cap
  | [], cap => by cases cap <;> simp [countRun]
  | b :: rest, 0 => by simp [countRun]
  | b :: rest, cap + 1 => by
    by_cases hbv : b = v
    · simpa [countRun, hbv] using countRun_le_cap v rest cap
    · simp [countRun, hbv]

theorem countRun_le_length (v : Nat) : ∀ (l : List Nat) (cap : Nat), countRun v l cap ≤ l.length
  | [], cap => by cases cap <;> simp [countRun]
  | b :: rest, 0 => by simp [countRun]
  | b :: rest, cap + 1 => by
    by_cases hbv : b = v
    · simpa [countRun, hbv] using countRun_le_length v rest cap
    · simp [countRun, hbv]

theorem take_countRun (v : Nat) :
    ∀ (l : List Nat) (cap : Nat),
      l.take (countRun v l cap) = List.replicate (countRun v l cap) v
  | [], cap => by cases cap <;> simp [countRun]
  | b :: rest, 0 => by simp [countRun]
  | b :: rest, cap + 1 => by
    by_cases hbv : b = v
    · simp [countRun, hbv, List.replicate_succ]
      exact take_countRun v rest cap
    · simp [countRun, hbv]

theorem rleLoop_valid :
    ∀ (fuel : Nat) (l : List Nat), (∀ b ∈ l, b < 256) → ∀ y ∈ rleLoop fuel l, y < 256
  | _, [], _ => by simp [rleLoop]
  | 0, _ :: _, _ => by simp [rleLoop]
  | fuel + 1, b :: rest, h => by
    have hb : b < 256 := h b (by simp)
    have hrest : ∀ x ∈ rest, x < 256 := fun x hx => h x (by simp [hx])
    have hdrop : ∀ (k : Nat), ∀ x ∈ rest.drop k, x < 256 :=
      fun k x hx => hrest x (List.drop_subset k rest hx)
    have hcap : countRun b rest 254 ≤ 254 := countRun_le_cap b rest 254
    intro y hy
    by_cases h3 : 3 < 1 + countRun b rest 254
    · simp only [rleLoop, if_pos h3, List.mem_cons] at hy
      rcases hy with rfl | hy
      · omega
      rcases hy with rfl | hy
      · omega
      rcases hy with rfl | hy
      · exact hb
      · exact rleLoop_valid fuel _ (hdrop _) y hy
    · by_cases h254 : b = 254
      · simp only [rleLoop, if_neg h3, if_pos h254, List.mem_cons] at hy
        rcases hy with rfl | hy
        · omega
        rcases hy with rfl | hy
        · omega
        rcases hy with rfl | hy
        · omega
        · exact rleLoop_valid fuel rest hrest y hy
      · simp only [rleLoop, if_neg h3, if_neg h254, List.mem_cons] at hy
        rcases hy with rfl | hy
        · exact hb
        · exact rleLoop_valid fuel rest hrest y hy

theorem rldLoop_cons_ne {b : Nat} (hb : b ≠ 254) (fuel : Nat) (w : List Nat) :
    rldLoop (fuel + 1) (b :: w) = b :: rldLoop fuel w := by
  match w with
  | [] => simp [rldLoop]
  | [c] => simp [rldLoop, hb]
  | c :: d :: w2 => simp [rldLoop, hb]

theorem rldLoop_rleLoop :
    ∀ (efuel : Nat) (l : List Nat), l.length ≤ efuel →
      ∀ (dfuel : Nat), (rleLoop efuel l).length ≤ dfuel → rldLoop dfuel (rleLoop efuel l) = l
  | _, [], _ => by
    intro dfuel _
    cases dfuel <;> simp [rleLoop, rldLoop]
  | 0, b :: rest, h => by simp at h
  | efuel + 1, b :: rest, h => by
    intro dfuel hd
    have hlen : rest.length ≤ efuel := by simpa using h
    by_cases h3 : 3 < 1 + countRun b rest 254
    · have hdlen : (rest.drop (countRun b rest 254)).length ≤ efuel := by
        simp only [List.length_drop]
        omega
      simp only [rleLoop, if_pos h3] at hd ⊢
      obtain ⟨d, rfl⟩ : ∃ d, dfuel = d + 1 := ⟨dfuel - 1, by simp at hd; omega⟩
      have hwlen : (rleLoop efuel (rest.drop (countRun b rest 254))).length ≤ d := by
        simp at hd
        omega
      have ih := rldLoop_rleLoop efuel (rest.drop (countRun b rest 254)) hdlen d hwlen
      simp only [rldLoop, if_pos rfl]
      rw [ih]
      have htake := take_countRun b rest 254
      calc List.replicate (1 + countRun b rest 254) b ++ rest.drop (countRun b rest 254)
          = b :: (List.replicate (countRun b rest 254) b ++ rest.drop (countRun b rest 254)) := by
            rw [Nat.add_comm 1 _, List.replicate_succ]
            simp
        _ = b :: (rest.take (countRun b rest 254) ++ rest.drop (countRun b rest 254)) := by
            rw [htake]
        _ = b :: rest := by rw [List.take_append_drop]
    · by_cases h254 : b = 254
      · simp only [rleLoop, if_neg h3, if_pos h254] at hd ⊢
        obtain ⟨d, rfl⟩ : ∃ d, dfuel = d + 1 := ⟨dfuel - 1, by simp at hd; omega⟩
        have hwlen : (rleLoop efuel rest).length ≤ d := by
          simp at hd
          omega
        have ih := rldLoop_rleLoop efuel rest hlen d hwlen
        simp only [rldLoop, if_pos rfl]
        rw [ih]
        simp [h254]
      · simp only [rleLoop, if_neg h3, if_neg h254] at hd ⊢
        obtain ⟨d, rfl⟩ : ∃ d, dfuel = d + 1 := ⟨dfuel - 1, by simp at hd; omega⟩
        have hwlen : (rleLoop efuel rest).length ≤ d := by
          simp at hd
          omega
        rw [rldLoop_cons_ne h254]
        rw [rldLoop_rleLoop efuel rest hlen d hwlen]

/-- C10: the run-length pass alone is a round-trip identity on byte
sequences: runs longer than 3 become records 0xFE, count, value, a
literal 0xFE is escaped as 0xFE, 1, 0xFE, and runLengthDecode inverts
runLengthEncode exactly. -/
theorem runLength_roundtrip (x : List Nat) (hx : ∀ b ∈ x, b < 256) :
    runLengthDecode (runLengthEncode x) = x := by
  unfold runLengthEncode runLengthDecode
  rw [u8_eq_self (fun b hb => rleLoop_valid x.length x hx b hb)]
  rw [rldLoop_rleLoop x.length x le_rfl _ le_rfl]
  exact u8_eq_self hx

/-- Witness for C10 at a concrete input containing a long run, a literal
sentinel byte and short runs. -/
theorem runLength_roundtrip_witness :
    runLengthDecode (runLengthEncode [5, 5, 5, 5, 5, 1, 254, 2, 2]) = [5, 5, 5, 5, 5, 1, 254, 2, 2] :=
  runLength_roundtrip [5, 5, 5, 5, 5, 1, 254, 2, 2] (by decide)

/-! ## Truncated streams: decompression never fails -/

theorem rldLoop_trailing_sentinel :
    ∀ (p : List Nat) (dfuel : Nat), 254 ∉ p → p.length + 1 ≤ dfuel →
      rldLoop dfuel (p ++ [254]) = p ++ [254]
  | [], dfuel, _, hd => by
    obtain ⟨d, rfl⟩ : ∃ d, dfuel = d + 1 := ⟨dfuel - 1, by omega⟩
    simp [rldLoop]
  | b :: p, dfuel, h, hd => by
    have hb : b ≠ 254 := fun hc => h (by simp [hc])
    have hp : 254 ∉ p := fun hc => h (by simp [hc])
    obtain ⟨d, rfl⟩ : ∃ d, dfuel = d + 1 := ⟨dfuel - 1, by omega⟩
    rw [List.cons_append, rldLoop_cons_ne hb]
    rw [rldLoop_trailing_sentinel p d hp (by simp at hd; omega)]

theorem dictEndIdx_eq_length :
    ∀ (d : List Nat), 255 ∉ d → dictEndIdx d = d.length
  | [], _ => rfl
  | b :: d, h => by
    have hb : b ≠ 255 := fun hc => h (by simp [hc])
    have hd : 255 ∉ d := fun hc => h (by simp [hc])
    simp [dictEndIdx, hb, dictEndIdx_eq_length d hd]

/-- C6 amended: decompression never fails with CorruptStream, because no
failure path exists.  A run-length escape record truncated at the buffer
boundary is passed through literally, sentinel included, and an input
whose in-band dictionary terminator is missing is consumed entirely as
dictionary, leaving an empty expansion; in both cases data is returned
silently. -/
theorem decompress_truncation_silent (p d : List Nat) (hp : ∀ b ∈ p, b < 256)
    (hnp : 254 ∉ p) (hnd : 255 ∉ d) :
    runLengthDecode (p ++ [254]) = p ++ [254] ∧ decodeFrequentPatterns d = [] := by
  constructor
  · unfold runLengthDecode
    have h1 : p.length + 1 ≤ (p ++ [254]).length := by simp
    have h2 := rldLoop_trailing_sentinel p (p ++ [254]).length hnp h1
    rw [h2]
    exact u8_eq_self (by
      intro b hb
      rcases List.mem_append.mp hb with hbp | hb254
      · exact hp b hbp
      · simp at hb254
        omega)
  · unfold decodeFrequentPatterns
    rw [dictEndIdx_eq_length d hnd, List.drop_eq_nil_of_le (by omega)]
    rfl

/-- Witness for C6 at a concrete truncated record and a concrete stream
without a dictionary terminator. -/
theorem decompress_truncation_silent_witness :
    runLengthDecode ([7] ++ [254]) = [7] ++ [254] ∧ decodeFrequentPatterns [7] = [] :=
  decompress_truncation_silent [7] [7] (by decide) (by decide) (by decide)

/-- Counterexample to C6 as stated: on the truncated stream 0xFF, 0xFE
(aterminated empty dictionary followed by a run-length sentinel with its
count and value cut off at the buffer boundary) binary decompression
does not fail but silently returns the byte 0xFE. -/
theorem decompress_truncated_returns_data :
    decompress [255, 254] .binary = [254] := by decide

/-! ## Totality of compression -/

/-- C8: compress is total for every byte sequence and every content type:
it always returns a byte sequence (every element below 256, by the final
Uint8Array coercion of the run-length pass), and no branch of the model
can fail; literal passthrough covers the no-match worst case. -/
theorem compress_total (x : List Nat) (t : DType) : ∀ b ∈ compress x t, b < 256 := by
  cases t <;> exact fun b hb => u8_mem_lt hb

/-- Witness for C8: the byte 255 occurs in the compression of the empty
sequence in binary mode, and is below 256. -/
theorem compress_total_witness : 255 ∈ compress [] .binary ∧ 255 < 256 :=
  ⟨by decide, compress_total [] .binary 255 (by decide)⟩

/-- C1 is a code bug (acknowledged in the design notes of the spec): the
round-trip law fails because decodeFrequentPatterns replaces every byte
in the reserved range 0xA0 to 0xAF by a placeholder 0, 0, 0 instead of
the dictionary pattern.  At the failing input x = the single byte 0xA0
with the binary content type, compress produces the stream 0xFF, 0xA0 and
decompress expands it to 0, 0, 0 rather than x. -/
theorem compress_roundtrip_failure :
    compress [160] .binary = [255, 160] ∧
    decompress (compress [160] .binary) .binary = [0, 0, 0] ∧
    decompress (compress [160] .binary) .binary ≠ [160] := by decide

end HMQCCompressor

/-! ## FEC engine: the decode path never corrects anything -/

theorem foldl_invariant {α β : Type} (f : α → β → α) (c : α) :
    ∀ (L : List β), (∀ i ∈ L, f c i = c) → L.foldl f c = c
  | [], _ => rfl
  | i :: L, h => by
    rw [List.foldl_cons, h i (by simp), foldl_invariant f c L (fun j hj => h j (by simp [hj]))]

theorem getD_replicate_zero : ∀ (n i : Nat), (List.replicate n (0 : Nat)).getD i 0 = 0
  | 0, _ => rfl
  | _ + 1, 0 => rfl
  | n + 1, i + 1 => by
    rw [List.replicate_succ, List.getD_cons_succ]
    exact getD_replicate_zero n i

namespace HMQCECC

/-- Parity of the all-zero message: every feedback in the encoding loop is
zero, so the working array never changes and the parity is all zero.
The all-zero 255-byte codeword is therefore a valid encoder output. -/
theorem rsEncodeBlock_zero : rsEncodeBlock (List.replicate 223 0) = List.replicate 32 0 := by
  unfold rsEncodeBlock
  have hbase : List.replicate 223 (0 : Nat) ++
      List.replicate (codewordLength - (List.replicate 223 (0 : Nat)).length) 0 =
      List.replicate 255 0 := by
    rw [List.length_replicate]
    show List.replicate 223 (0 : Nat) ++ List.replicate 32 0 = _
    rw [← List.replicate_add]
  rw [hbase]
  rw [foldl_invariant _ (List.replicate 255 0) _ ?hinv]
  case hinv =>
    intro i _
    simp only []
    rw [getD_replicate_zero, getD_replicate_zero]
    rw [show Nat.xor 0 0 = 0 from rfl]
    simp
  rw [List.length_replicate]
  decide

/-- On a codeword whose bytes do not XOR to zero, every one of the 32
identical syndrome slots is nonzero, so rsDecodeBlock counts 32 errors,
skips the unreachable correction branch, and returns the first 223 bytes
unchanged with the uncorrectable flag set. -/
theorem rsDecodeBlock_xor_ne (rand : Nat → Bool) (cw : List Nat)
    (h : cw.foldl Nat.xor 0 ≠ 0) :
    rsDecodeBlock rand cw = ⟨cw.take messageLength, 32, true⟩ := by
  have herr : (List.range parityLength).foldl
      (fun e _ => if cw.foldl Nat.xor 0 ≠ 0 then e + 1 else e) 0 = 32 := by
    have hf : (fun (e : Nat) (_ : Nat) => if cw.foldl Nat.xor 0 ≠ 0 then e + 1 else e) =
        fun e _ => e + 1 := by
      funext e j
      simp [h]
    rw [hf]
    decide
  simp only [rsDecodeBlock]
  rw [herr]
  norm_num [parityLength]

/-- C2 is a code bug (acknowledged in the design notes of the spec): the
syndrome loop XORs the whole codeword into every slot instead of
evaluating it at 32 points, so a single symbol error yields an error
count of 32, which exceeds t = 16 and is reported uncorrectable instead
of being corrected with correctedErrorCount 1.  The witness codeword is
the valid all-zero codeword (parity of the zero message is zero) with
exactly one error of value 1 at position 0, and the conclusion holds for
every draw of the Math.random oracle. -/
theorem fec_single_error_not_corrected : ∀ (rand : Nat → Bool),
    rsEncodeBlock (List.replicate 223 0) = List.replicate 32 0 ∧
    symbolDiffCount (List.replicate 255 0) (1 :: List.replicate 254 0) = 1 ∧
    (rsDecodeBlock rand (1 :: List.replicate 254 0)).errors = 32 ∧
    (rsDecodeBlock rand (1 :: List.replicate 254 0)).uncorrectable = true := by
  intro rand
  have hx : (1 :: List.replicate 254 0).foldl Nat.xor 0 ≠ 0 := by decide
  have hdec := rsDecodeBlock_xor_ne rand (1 :: List.replicate 254 0) hx
  refine ⟨rsEncodeBlock_zero, by decide, ?_, ?_⟩ <;> rw [hdec]

/-- C3 is a code bug (acknowledged in the design notes of the spec): an
uncorrupted encode-decode round trip is NOT declared error-free.  For the
223-byte payload consisting of 222 zero bytes and a final 9, the encoder
emits the codeword payload ++ parity with parity 32 copies of 9, whose
bytes XOR to 9, not 0; decode therefore reports 32 corrected errors and
failure even though the message bytes, which it passes through unchanged,
still equal the payload.  The conclusion holds for every draw of the
Math.random oracle. -/
theorem uncorrupted_decode_reports_errors : ∀ (rand : Nat → Bool),
    (decode rand (encode (List.replicate 222 0 ++ [9]))).correctedErrors = 32 ∧
    (decode rand (encode (List.replicate 222 0 ++ [9]))).success = false ∧
    (decode rand (encode (List.replicate 222 0 ++ [9]))).data.take 223 =
      List.replicate 222 0 ++ [9] := by
  intro rand
  have hsplit : splitIntoBlocks (List.replicate 222 0 ++ [9]) =
      [List.replicate 222 0 ++ [9]] := by decide
  have hrs : rsEncodeBlock (List.replicate 222 0 ++ [9]) = List.replicate 32 9 := by decide
  have henc : encode (List.replicate 222 0 ++ [9]) =
      (List.replicate 222 0 ++ [9]) ++ List.replicate 32 9 := by
    unfold encode
    rw [hsplit]
    simp only [List.map_cons, List.map_nil, hrs, List.flatten_cons, List.flatten_nil,
      List.append_nil]
  have hext : extractBlocks ((List.replicate 222 0 ++ [9]) ++ List.replicate 32 9) =
      [(List.replicate 222 0 ++ [9]) ++ List.replicate 32 9] := by decide
  have hxor : (((List.replicate 222 0 ++ [9]) ++ List.replicate 32 9)).foldl Nat.xor 0 ≠ 0 := by
    decide
  have hdec := rsDecodeBlock_xor_ne rand _ hxor
  have htake : (((List.replicate 222 0 ++ [9]) ++ List.replicate 32 9).take messageLength).take 223 =
      List.replicate 222 0 ++ [9] := by decide
  simp only [decode, henc, hext, List.map_cons, List.map_nil, hdec]
  refine ⟨by simp, by norm_num [parityLength], ?_⟩
  simpa using htake

end HMQCECC

namespace HMQCCore

/-! ## Metadata codec -/

theorem length_u32be (v : Nat) : (u32be v).length = 4 := rfl

theorem readU32_skip (v : Nat) (rest : List Nat) (off : Nat) :
    readU32 (u32be v ++ rest) (off + 4) = readU32 rest off := by
  have hgd : ∀ (j : Nat), 4 ≤ j → (u32be v ++ rest).getD j 0 = rest.getD (j - 4) 0 := by
    intro j hj
    rw [List.getD_append_right _ _ _ _ (by rw [length_u32be]; exact hj)]
    rw [length_u32be]
  unfold readU32
  rw [hgd (off + 4) (by omega), hgd (off + 4 + 1) (by omega), hgd (off + 4 + 2) (by omega),
      hgd (off + 4 + 3) (by omega)]
  have e0 : off + 4 - 4 = off := by omega
  have e1 : off + 4 + 1 - 4 = off + 1 := by omega
  have e2 : off + 4 + 2 - 4 = off + 2 := by omega
  have e3 : off + 4 + 3 - 4 = off + 3 := by omega
  rw [e0, e1, e2, e3]

theorem readU32_cons4 (b0 b1 b2 b3 : Nat) (rest : List Nat) :
    readU32 (b0 :: b1 :: b2 :: b3 :: rest) 0 = b0 * 16777216 + b1 * 65536 + b2 * 256 + b3 := by
  unfold readU32
  norm_num

theorem readU32_u32be (v : Nat) (rest : List Nat) :
    readU32 (u32be v ++ rest) 0 = v % 4294967296 := by
  have hu : u32be v ++ rest =
      ((v % 4294967296) >>> 24) :: (((v % 4294967296) >>> 16) % 256) ::
        (((v % 4294967296) >>> 8) % 256) :: (v % 256) :: rest := by
    simp [u32be]
  rw [hu, readU32_cons4]
  have hlast : v % 256 = v % 4294967296 % 256 :=
    (Nat.mod_mod_of_dvd v (by norm_num)).symm
  rw [hlast]
  have hlt : v % 4294967296 < 4294967296 := Nat.mod_lt _ (by norm_num)
  simp only [Nat.shiftRight_eq_div_pow]
  omega

/-- C4 corrected: decoding the header produced by generateMetadata
recovers the content type, the original size and the compressed size
exactly, for all 32-bit sizes, timestamps and ids; but the version parses
as the fixed string 0.3.0 rather than the encoder version 3.0, because
parseMetadata reads major, minor and patch from bits 16-23, 8-15 and 0-7
of the version word while generateMetadata packs the two components of
3.0 into bits 8-15 and 0-7. -/
theorem metadata_roundtrip_amended (t : DType) (a b ts id : Nat)
    (ha : a < 4294967296) (hb : b < 4294967296) :
    (parseMetadata (generateMetadata t a b ts id)).dataType = dtName t ∧
    (parseMetadata (generateMetadata t a b ts id)).originalSize = a ∧
    (parseMetadata (generateMetadata t a b ts id)).compressedSize = b ∧
    (parseMetadata (generateMetadata t a b ts id)).version = "0.3.0" := by
  have h4 : readU32 (generateMetadata t a b ts id) 4 = 768 := by
    unfold generateMetadata
    rw [show (4 : Nat) = 0 + 4 from rfl, readU32_skip, readU32_u32be]
    decide
  have h8 : readU32 (generateMetadata t a b ts id) 8 = typeCode t := by
    unfold generateMetadata
    rw [show (8 : Nat) = 4 + 4 from rfl, readU32_skip,
        show (4 : Nat) = 0 + 4 from rfl, readU32_skip, readU32_u32be]
    cases t <;> decide
  have h12 : readU32 (generateMetadata t a b ts id) 12 = a := by
    unfold generateMetadata
    rw [show (12 : Nat) = 8 + 4 from rfl, readU32_skip,
        show (8 : Nat) = 4 + 4 from rfl, readU32_skip,
        show (4 : Nat) = 0 + 4 from rfl, readU32_skip, readU32_u32be]
    exact Nat.mod_eq_of_lt ha
  have h16 : readU32 (generateMetadata t a b ts id) 16 = b := by
    unfold generateMetadata
    rw [show (16 : Nat) = 12 + 4 from rfl, readU32_skip,
        show (12 : Nat) = 8 + 4 from rfl, readU32_skip,
        show (8 : Nat) = 4 + 4 from rfl, readU32_skip,
        show (4 : Nat) = 0 + 4 from rfl, readU32_skip, readU32_u32be]
    exact Nat.mod_eq_of_lt hb
  refine ⟨?_, ?_, ?_, ?_⟩
  · show typeNameOfCode (readU32 (generateMetadata t a b ts id) 8) = dtName t
    rw [h8]
    cases t <;> rfl
  · exact h12
  · exact h16
  · show toString ((readU32 (generateMetadata t a b ts id) 4 >>> 16) % 256) ++ "." ++
        toString ((readU32 (generateMetadata t a b ts id) 4 >>> 8) % 256) ++ "." ++
        toString (readU32 (generateMetadata t a b ts id) 4 % 256) = "0.3.0"
    rw [h4]
    decide

/-- Witness for C4 as amended, at a concrete type and sizes. -/
theorem metadata_roundtrip_amended_witness :
    (parseMetadata (generateMetadata .audio 7 5 99 42)).dataType = dtName .audio ∧
    (parseMetadata (generateMetadata .audio 7 5 99 42)).originalSize = 7 ∧
    (parseMetadata (generateMetadata .audio 7 5 99 42)).compressedSize = 5 ∧
    (parseMetadata (generateMetadata .audio 7 5 99 42)).version = "0.3.0" :=
  metadata_roundtrip_amended .audio 7 5 99 42 (by decide) (by decide)

/-- Counterexample to C4 as stated: the decoded version string is 0.3.0,
which differs from the encoder version HMQCCore.version = 3.0, so the
header round trip does not recover the same version. -/
theorem metadata_version_not_recovered :
    (parseMetadata (generateMetadata .text 0 0 0 0)).version ≠ coreVersion := by decide

/-- C5 amended: parseMetadata never fails.  It does not validate the
signature word: every field is parsed the same way whatever the magic
bytes hold, and a content-type code outside 1 to 4 is mapped to the
string unknown rather than raising UnknownContentType. -/
theorem parseMetadata_never_fails (bytes : List Nat)
    (_hmagic : readU32 bytes 0 ≠ 0x484D5143)
    (hc : readU32 bytes 8 ≠ 1 ∧ readU32 bytes 8 ≠ 2 ∧ readU32 bytes 8 ≠ 3 ∧
      readU32 bytes 8 ≠ 4) :
    (parseMetadata bytes).dataType = "unknown" ∧
    (parseMetadata bytes).originalSize = readU32 bytes 12 ∧
    (parseMetadata bytes).compressedSize = readU32 bytes 16 := by
  obtain ⟨h1, h2, h3, h4⟩ := hc
  refine ⟨?_, rfl, rfl⟩
  show typeNameOfCode (readU32 bytes 8) = "unknown"
  simp [typeNameOfCode, h1, h2, h3, h4]

/-- Witness for C5 as amended, at the all-zero 32-byte header. -/
theorem parseMetadata_never_fails_witness :
    (parseMetadata (List.replicate 32 0)).dataType = "unknown" ∧
    (parseMetadata (List.replicate 32 0)).originalSize = readU32 (List.replicate 32 0) 12 ∧
    (parseMetadata (List.replicate 32 0)).compressedSize = readU32 (List.replicate 32 0) 16 :=
  parseMetadata_never_fails (List.replicate 32 0) (by decide) (by decide)

/-- Counterexample to C5 as stated: on an all-zero 32-byte input, whose
signature word 0 differs from the magic constant and whose content-type
code 0 is outside the enumerated set, parseMetadata does not fail with
BadMagic or UnknownContentType; it succeeds and returns a fully populated
record. -/
theorem parseMetadata_succeeds_on_invalid :
    parseMetadata (List.replicate 32 0) =
      { magic := "0", version := "0.0.0", dataType := "unknown",
        originalSize := 0, compressedSize := 0, timestampSecs := 0, id := 0 } := by decide

/-! ## Matrix sizing and module mapping -/

theorem ceilSqrt_mono {m n : Nat} (h : m ≤ n) : ceilSqrt m ≤ ceilSqrt n := by
  unfold ceilSqrt
  by_cases hm : m = 0
  · simp [hm]
  · have hn : n ≠ 0 := by omega
    simp only [if_neg hm, if_neg hn]
    have := Nat.sqrt_le_sqrt (Nat.sub_le_sub_right h 1)
    omega

/-- C7: the computed matrix side length is monotone in the payload size,
and always lies in the interval 256 to 4096. -/
theorem matrix_size_monotone_bounded (m n : Nat) (h : m ≤ n) :
    calculateMatrixSize m ≤ calculateMatrixSize n ∧
    256 ≤ calculateMatrixSize m ∧ calculateMatrixSize m ≤ 4096 := by
  unfold calculateMatrixSize
  refine ⟨?_, ?_, ?_⟩
  · have h1 : (m * 8 + 31) / 32 ≤ (n * 8 + 31) / 32 := Nat.div_le_div_right (by omega)
    have h2 := ceilSqrt_mono h1
    exact min_le_min (max_le_max (by omega) le_rfl) le_rfl
  · exact le_min (le_max_right _ _) (by omega)
  · exact min_le_right _ _

/-- Witness for C7 at concrete payload sizes. -/
theorem matrix_size_monotone_bounded_witness :
    calculateMatrixSize 3 ≤ calculateMatrixSize 1000000 ∧
    256 ≤ calculateMatrixSize 3 ∧ calculateMatrixSize 3 ≤ 4096 :=
  matrix_size_monotone_bounded 3 1000000 (by decide)

/-- C9: mapping bytes onto modules is deterministic, a pure function of
the byte stream and the grid dimensions, and every module whose byte
index falls beyond the stream length carries the fixed decorative pattern
7i, 13i, 19i modulo 256 with full alpha, a function of the module index
alone. -/
theorem bytesToColorModules_deterministic (b1 b2 : List Nat) (w h i : Nat)
    (hb : b1 = b2) (hi : i < w * h) (ht : b1.length ≤ i * 4) :
    bytesToColorModules b1 w h = bytesToColorModules b2 w h ∧
    (bytesToColorModules b1 w h).getD i ⟨0, 0, 0, 0⟩ =
      ⟨i * 7 % 256, i * 13 % 256, i * 19 % 256, 255⟩ := by
  subst hb
  refine ⟨rfl, ?_⟩
  unfold bytesToColorModules
  rw [List.getD_eq_getElem?_getD, List.getElem?_map, List.getElem?_range hi]
  simp only [Option.map_some', Option.getD_some]
  rw [if_neg (by omega)]

/-- Witness for C9 at a concrete stream and grid. -/
theorem bytesToColorModules_deterministic_witness :
    bytesToColorModules [5] 1 2 = bytesToColorModules [5] 1 2 ∧
    (bytesToColorModules [5] 1 2).getD 1 ⟨0, 0, 0, 0⟩ =
      ⟨1 * 7 % 256, 1 * 13 % 256, 1 * 19 % 256, 255⟩ :=
  bytesToColorModules_deterministic [5] [5] 1 2 1 rfl (by decide) (by decide)

end HMQCCore

end SDIDC
